import Mathlib

/-!
Verification of the lossless Markdown document model in `markdown_db.py`.

Strings are modelled as `List Char` (`Str` below).  Each definition mirrors a
function or method of the source file; regular-expression line matchers are
translated into equivalent deterministic scanners over the char list, following
the (deterministic) backtracking behaviour of the Python `re` patterns on the
line-shaped inputs the parser feeds them.
-/

namespace MarkdownDb

abbrev Str := List Char

/-- Characters Python's `str.splitlines` treats as line boundaries
(`\r\n` is additionally combined into a single boundary). -/
def isLineBreak (c : Char) : Bool :=
  (['\n', '\r', '\x0b', '\x0c', '\x1c', '\x1d', '\x1e', '\x85',
    '\u2028', '\u2029'] : List Char).contains c

/-- Whitespace for Python's `\s` regex class and `str.strip()`
(the set of characters with `str.isspace() = True`). -/
def isPyWs (c : Char) : Bool :=
  ([' ', '\t', '\n', '\r', '\x0b', '\x0c', '\x1c', '\x1d', '\x1e',
    '\x1f', '\x85', '\u00a0', '\u1680', '\u2028', '\u2029', '\u202f',
    '\u205f', '\u3000'] : List Char).contains c ||
  (('\u2000' : Char) ≤ c && c ≤ ('\u200a' : Char))

/-- The `[ \t]` character class used by the line grammar. -/
def isSpaceTab (c : Char) : Bool :=
  c = ' ' || c = '\t'

/-- `str.splitlines(keepends=True)`: split at line boundaries, keeping the
boundary characters attached to the line they end. -/
def splitLinesAux : Str → Str → List Str
  | cur, [] => if cur = [] then [] else [cur]
  | cur, '\r' :: '\n' :: rest => (cur ++ ['\r', '\n']) :: splitLinesAux [] rest
  | cur, '\r' :: rest => (cur ++ ['\r']) :: splitLinesAux [] rest
  | cur, c :: rest =>
      if isLineBreak c then (cur ++ [c]) :: splitLinesAux [] rest
      else splitLinesAux (cur ++ [c]) rest

def splitLines (s : Str) : List Str :=
  splitLinesAux [] s

/-- Concatenation of a list of lines. -/
def joinLines (ls : List Str) : Str :=
  ls.foldr (· ++ ·) []

/-- Drop a maximal run of `isPyWs` characters from the end. -/
def dropTrailingWs (s : Str) : Str :=
  (s.reverse.dropWhile isPyWs).reverse

/-- The maximal run of `isPyWs` characters at the end. -/
def takeTrailingWs (s : Str) : Str :=
  (s.reverse.takeWhile isPyWs).reverse

/-- `_split_trivia`: `re.match(r"(\s*)(.*?)(\s*)\Z", raw, DOTALL)` splits a raw
span into (leading whitespace, core, trailing whitespace): the greedy first
group takes the maximal whitespace prefix, the greedy third group the maximal
whitespace suffix of what remains, the lazy core the rest. -/
def splitTrivia (raw : Str) : Str × Str × Str :=
  let leading := raw.takeWhile isPyWs
  let rest := raw.dropWhile isPyWs
  (leading, dropTrailingWs rest, takeTrailingWs rest)

/-- Python `str.strip()`: remove whitespace from both ends. -/
def pyStrip (s : Str) : Str :=
  dropTrailingWs (s.dropWhile isPyWs)

/-- `_strip_linebreaks_only`: Python `str.rstrip("\r\n")`. -/
def stripLinebreaksOnly (s : Str) : Str :=
  (s.reverse.dropWhile (fun c => c = '\r' || c = '\n')).reverse

/-- `blank_line_re = ^[ \t]*\r?\n\Z`: spaces/tabs then a (required) newline. -/
def isBlank (l : Str) : Bool :=
  let r := l.dropWhile isSpaceTab
  r = ['\n'] || r = ['\r', '\n']

/-- Split a maximal prefix of blank lines off a line list, concatenating them
(the `while i < len(lines) and is_blank(lines[i])` accumulation loops). -/
def takeBlanks : List Str → Str × List Str
  | [] => ([], [])
  | l :: ls =>
      if isBlank l then
        let p := takeBlanks ls
        (l ++ p.1, p.2)
      else ([], l :: ls)

/-- Strip a maximal suffix in {`\r\n`, `\n`, ``} off a line; returns
(rest, eol).  This is how the greedy/lazy groups of the line regexes divide a
line before its optional `(?P<eol>\r?\n)?` group. -/
def splitEol (s : Str) : Str × Str :=
  match s.reverse with
  | '\n' :: '\r' :: r => (r.reverse, ['\r', '\n'])
  | '\n' :: r => (r.reverse, ['\n'])
  | _ => (s, [])

/-- Result of `heading_re` on a line: the captured groups
`(indent, hashes, space, title, trailing, eol)`. -/
structure HeadingMatch where
  indent : Str
  hashes : Str
  space : Str
  title : Str
  trailing : Str
  eol : Str

/-- `heading_re = ^([ \t]*)(#{1,6})([ \t]+)(.*?)([ \t]*)(\r?\n)?\Z`.
The lazy title together with the greedy trailing/eol groups make the title the
remainder after removing the maximal `[ \t]*(\r?\n)?` suffix; `.` does not
match `\n`, so a `\n` left inside the title means no match; more than six
hashes cannot match because `[ \t]+` cannot match a seventh `#`. -/
def headingMatch (l : Str) : Option HeadingMatch :=
  let indent := l.takeWhile isSpaceTab
  let r1 := l.dropWhile isSpaceTab
  let hashes := r1.takeWhile (· = '#')
  if hashes.length = 0 || 6 < hashes.length then none
  else
    let r2 := r1.drop hashes.length
    let space := r2.takeWhile isSpaceTab
    if space = [] then none
    else
      let tail := r2.dropWhile isSpaceTab
      let (beforeEol, eol) := splitEol tail
      let trailing := takeTrailingWsTab beforeEol
      let title := dropTrailingWsTab beforeEol
      if title.contains '\n' then none
      else some ⟨indent, hashes, space, title, trailing, eol⟩
where
  takeTrailingWsTab (s : Str) : Str := (s.reverse.takeWhile isSpaceTab).reverse
  dropTrailingWsTab (s : Str) : Str := (s.reverse.dropWhile isSpaceTab).reverse

/-- Result of `fence_open_re` on a line: captured groups
`(indent, fence, info, eol)`. -/
structure FenceOpenMatch where
  indent : Str
  fence : Str
  info : Str
  eol : Str

/-- `fence_open_re = ^([ \t]*)(`{3,}|~{3,})([^\r\n]*)(\r?\n)?\Z`: optional
indent, a run of at least three backticks or tildes (greedy, so the whole
run), an info string free of `\r`/`\n`, an optional newline. -/
def fenceOpenMatch (l : Str) : Option FenceOpenMatch :=
  let indent := l.takeWhile isSpaceTab
  let r1 := l.dropWhile isSpaceTab
  match r1 with
  | c :: _ =>
      if c = '`' || c = '~' then
        let fence := r1.takeWhile (· = c)
        if fence.length < 3 then none
        else
          let rest := r1.drop fence.length
          let (info, eol) := splitEol rest
          if info.contains '\r' || info.contains '\n' then none
          else some ⟨indent, fence, info, eol⟩
      else none
  | [] => none

/-- The closing-fence test inside `Parse`:
`^[ \t]*{c}{{{n},}}[ \t]*[^\r\n]*\r?\n?\Z` — optional indent, at least `n`
copies of the opening fence character, then arbitrary non-newline content,
then an optional `\r`, an optional `\n`. -/
def fenceCloseOk (c : Char) (n : Nat) (l : Str) : Bool :=
  let r1 := l.dropWhile isSpaceTab
  let run := r1.takeWhile (· = c)
  let rest := r1.drop run.length
  decide (n ≤ run.length) && closeTailOk rest
where
  /-- after the fence run: `[^\r\n]*\r?\n?\Z`, i.e. `\r`/`\n` may occur only
  as a final suffix `\r?\n?`. -/
  closeTailOk (s : Str) : Bool :=
    let s1 := match s.reverse with
      | '\n' :: '\r' :: r => r
      | '\n' :: r => r
      | '\r' :: r => r
      | r => r
    s1.all (fun ch => !(ch = '\r' || ch = '\n'))

/-- Fields of a `LinkNode` (`NodeType.Link` or, for `is_image`,
`NodeType.Image`): the captured raw span plus the trivia triples of the label
and the href. -/
structure LinkF where
  isImage : Bool
  rawOriginal : Str
  labelLeading : Str
  labelCore : Str
  labelTrailing : Str
  hrefLeading : Str
  hrefCore : Str
  hrefTrailing : Str

/-- Fields of a `CodeBlockNode`: the four captured raw pieces plus the
structured fields parsed out of the opening and closing lines, and the
current (editable) code body. -/
structure CodeF where
  openingLine : Str
  codeBodyOriginal : Str
  closingLine : Str
  blockSuffix : Str
  openingIndent : Str
  fence : Str
  info : Str
  openingEol : Str
  closingIndent : Str
  closingFence : Str
  closingTrailing : Str
  closingEol : Str
  codeBodyCurrent : Str

/-- Fields of a `HeadingNode`: level, captured raw line, structural pieces of
the line, and the trailing blank-line block suffix. -/
structure HeadingF where
  level : Nat
  rawLine : Str
  preamble : Str
  titleLeading : Str
  titleCore : Str
  titleTrailing : Str
  lineSuffix : Str
  blockSuffix : Str

/-- The node hierarchy of `markdown_db.py`, restricted to the shapes the
parser actually builds: the document root, headings (block children),
paragraphs (inline children), code blocks, and the two inline leaves.  Each
node carries its own `_dirty_self` flag; `text`/`link`/`code` leaves have no
children (the Python base class would allow some via `AddChild`, but no parser
path or modelled operation creates any there). -/
inductive Node where
  | doc (leadingTrivia : Str) (children : List Node) (dirtySelf : Bool)
  | heading (f : HeadingF) (children : List Node) (dirtySelf : Bool)
  | para (rawOriginal : Str) (blockSuffix : Str) (children : List Node)
      (dirtySelf : Bool)
  | code (f : CodeF) (dirtySelf : Bool)
  | text (rawOriginal : Str) (leading : Str) (core : Str) (trailing : Str)
      (dirtySelf : Bool)
  | link (f : LinkF) (dirtySelf : Bool)

/-- `TextNode.__init__`: capture the raw span and its trivia split. -/
def mkTextNode (raw : Str) : Node :=
  let t := splitTrivia raw
  .text raw t.1 t.2.1 t.2.2 false

/-- `LinkNode.__init__`: capture the raw span and the trivia splits of label
and href. -/
def mkLinkNode (raw label href : Str) (isImage : Bool) : Node :=
  let lt := splitTrivia label
  let ht := splitTrivia href
  .link ⟨isImage, raw, lt.1, lt.2.1, lt.2.2, ht.1, ht.2.1, ht.2.2⟩ false

/-- Split a char list at the first occurrence of `ch`
(Python `str.find` + slicing): `s = before ++ ch :: after` with `ch ∉ before`,
or `none` when `ch` does not occur. -/
def splitAtFirst (ch : Char) : Str → Option (Str × Str)
  | [] => none
  | c :: cs =>
      if c = ch then some ([], cs)
      else (splitAtFirst ch cs).map (fun p => (c :: p.1, p.2))

/-- `_try_parse_link(raw, pos, is_image)`, viewed from the current position:
require the `![`/`[` opener, take the label up to the first `]`, require `(`
immediately after it, take the href up to the first `)`.  Returns the consumed
raw span, the label, the href, and the remaining input. -/
def linkOpen (isImage : Bool) (s : Str) : Option Str :=
  if isImage then
    match s with
    | c1 :: c2 :: t => if c1 = '!' && c2 = '[' then some t else none
    | _ => none
  else
    match s with
    | c :: t => if c = '[' then some t else none
    | _ => none

def tryParseLink (isImage : Bool) (s : Str) : Option (Str × Str × Str × Str) :=
  match linkOpen isImage s with
  | none => none
  | some body =>
      match splitAtFirst ']' body with
      | none => none
      | some (label, r2) =>
          match r2 with
          | '(' :: r3 =>
              match splitAtFirst ')' r3 with
              | none => none
              | some (href, r4) =>
                  some ((if isImage then ['!', '['] else ['[']) ++ label ++
                          [']', '('] ++ href ++ [')'],
                        label, href, r4)
          | _ => none

/-- `flush_text`: a pending non-empty buffer becomes a `TextNode`. -/
def flushBuf (buf : Str) : List Node :=
  if buf = [] then [] else [mkTextNode buf]

/-- The scanning loop of `_parse_inlines`: walk the raw text, at each position
trying image syntax then link syntax, otherwise buffering the character as
text.  `fuel` bounds the recursion; every step consumes at least one
character, so `fuel = |input|` (as used by `parseInlines`) never runs out. -/
def parseInlinesAux : Nat → Str → Str → List Node
  | 0, buf, _ => flushBuf buf
  | _ + 1, buf, [] => flushBuf buf
  | fuel + 1, buf, c :: cs =>
      if c = '!' && cs.head? = some '[' then
        match tryParseLink true (c :: cs) with
        | some (raw, label, href, rest) =>
            flushBuf buf ++ mkLinkNode raw label href true ::
              parseInlinesAux fuel [] rest
        | none => parseInlinesAux fuel (buf ++ [c]) cs
      else if c = '[' then
        match tryParseLink false (c :: cs) with
        | some (raw, label, href, rest) =>
            flushBuf buf ++ mkLinkNode raw label href false ::
              parseInlinesAux fuel [] rest
        | none => parseInlinesAux fuel (buf ++ [c]) cs
      else parseInlinesAux fuel (buf ++ [c]) cs

/-- `_parse_inlines`. -/
def parseInlines (raw : Str) : List Node :=
  parseInlinesAux raw.length [] raw

/-- `CodeBlockNode._parse_opening`: the fence-open pattern (its lazy info
group captures the same text as the greedy one), with the documented fallback
`("", "```", "", "\n" if line.endswith("\n") else "")` when the pattern does
not match. -/
def codeParseOpening (line : Str) : Str × Str × Str × Str :=
  match fenceOpenMatch line with
  | some m => (m.indent, m.fence, m.info, m.eol)
  | none =>
      ([], ['`', '`', '`'], [],
       if line.getLast? = some '\n' then ['\n'] else [])

/-- `CodeBlockNode._parse_closing`: identical pattern and fallback, with the
post-fence text captured as `trailing`. -/
def codeParseClosing (line : Str) : Str × Str × Str × Str :=
  codeParseOpening line

/-- `CodeBlockNode.__init__`. -/
def mkCodeNode (openingLine codeBody closingLine blockSuffix : Str) : Node :=
  let o := codeParseOpening openingLine
  let c := codeParseClosing closingLine
  .code ⟨openingLine, codeBody, closingLine, blockSuffix,
         o.1, o.2.1, o.2.2.1, o.2.2.2,
         c.1, c.2.1, c.2.2.1, c.2.2.2, codeBody⟩ false

/-- `HeadingNode.__init__` applied to the groups of a heading-line match and
the following blank lines. -/
def mkHeadingF (m : HeadingMatch) (line bs : Str) : HeadingF :=
  let t := splitTrivia m.title
  ⟨m.hashes.length, line, m.indent ++ m.hashes ++ m.space,
   t.1, t.2.1, t.2.2, m.trailing ++ m.eol, bs⟩

/-- A heading node with the given children, as attached by the parser
(`_AppendChildParsed` leaves everything clean). -/
def mkHeadingNode (f : HeadingF) (cs : List Node) : Node :=
  .heading f cs false

/-- An open heading on the parse stack, with the children collected for it so
far.  The Python stack also holds the root (level 0) at the bottom; here the
root's child list is carried separately, so a level-0 entry never exists and
is never popped, exactly as in the source. -/
abbrev Frame := HeadingF × List Node

/-- `stack[-1]._AppendChildParsed(node)`: attach to the innermost open
heading, or to the root when no heading is open. -/
def pushNode (stack : List Frame) (acc : List Node) (n : Node) :
    List Frame × List Node :=
  match stack with
  | [] => ([], acc ++ [n])
  | (f, c) :: rest => ((f, c ++ [n]) :: rest, acc)

/-- Continuation of `popTo` once the top frame is known to be popped: keep
folding popped headings into their parents while the level test holds. -/
def popToAux : Nat → List Frame → Node → List Node → List Frame × List Node
  | _, [], h, acc => ([], acc ++ [h])
  | lvl, (g, d) :: rest, h, acc =>
      if lvl ≤ g.level then popToAux lvl rest (mkHeadingNode g (d ++ [h])) acc
      else ((g, d ++ [h]) :: rest, acc)

/-- `while stack_levels and stack_levels[-1] >= level: pop`: pop open headings
whose level is `≥` the new heading's level; a popped heading becomes the last
child of the frame below it (or of the root). -/
def popTo (lvl : Nat) (stack : List Frame) (acc : List Node) :
    List Frame × List Node :=
  match stack with
  | [] => ([], acc)
  | (f, c) :: rest =>
      if lvl ≤ f.level then popToAux lvl rest (mkHeadingNode f c) acc
      else (stack, acc)

/-- Closing all still-open headings at end of input (in the source the
headings are already attached to their parents; here the fold realises the
same tree). -/
def collapseAux : List Frame → Node → List Node → List Node
  | [], h, acc => acc ++ [h]
  | (g, d) :: rest, h, acc => collapseAux rest (mkHeadingNode g (d ++ [h])) acc

def collapse : List Frame → List Node → List Node
  | [], acc => acc
  | (f, c) :: rest, acc => collapseAux rest (mkHeadingNode f c) acc

/-- The closing-fence search loop: accumulate body lines until a line passes
`fenceCloseOk`; `none` when the input ends first. -/
def scanFence (c : Char) (n : Nat) : List Str → Option (List Str × Str × List Str)
  | [] => none
  | l :: ls =>
      if fenceCloseOk c n l then some ([], l, ls)
      else (scanFence c n ls).map (fun p => (l :: p.1, p.2.1, p.2.2))

/-- The fenced-code branch of `Parse`: `none` both when the line is not a
fence opener and when no closing fence follows (in which case the source
rewinds `i` to the fence-open line and falls through to the heading check
with the identical line and remaining input). -/
def stepFence (line : Str) (rest : List Str) : Option (Node × List Str) :=
  match fenceOpenMatch line with
  | none => none
  | some fo =>
      match scanFence (fo.fence.headD ' ') fo.fence.length rest with
      | none => none
      | some (body, closeLine, rest2) =>
          let tb := takeBlanks rest2
          some (mkCodeNode line (joinLines body) closeLine tb.1, tb.2)

/-- A line that terminates paragraph absorption: blank, heading, or
fence-open. -/
def paraBreak (l : Str) : Bool :=
  isBlank l || (headingMatch l).isSome || (fenceOpenMatch l).isSome

/-- The main loop of `MarkdownDocument.Parse`, after the leading blanks are
consumed.  Every iteration consumes at least one input line, so the fuel
`|lines|` used by `parseParts` never runs out (`none` is the out-of-fuel
marker). -/
def parseBlocks : Nat → List Str → List Frame → List Node → Option (List Node)
  | 0, [], stack, acc => some (collapse stack acc)
  | 0, _ :: _, _, _ => none
  | _ + 1, [], stack, acc => some (collapse stack acc)
  | fuel + 1, line :: rest, stack, acc =>
      match stepFence line rest with
      | some (node, rest3) =>
          let p := pushNode stack acc node
          parseBlocks fuel rest3 p.1 p.2
      | none =>
          match headingMatch line with
          | some hm =>
              let tb := takeBlanks rest
              let hf := mkHeadingF hm line tb.1
              let p := popTo hf.level stack acc
              parseBlocks fuel tb.2 ((hf, []) :: p.1) p.2
          | none =>
              let more := rest.takeWhile (fun l => !paraBreak l)
              let rest2 := rest.dropWhile (fun l => !paraBreak l)
              let rawPara := line ++ joinLines more
              let tb := takeBlanks rest2
              let p := pushNode stack acc
                (Node.para rawPara tb.1 (parseInlines rawPara) false)
              parseBlocks fuel tb.2 p.1 p.2

/-- `MarkdownDocument.Parse`: leading blank lines become document-level
leading trivia, then the block loop runs.  Returns the trivia and (fuel
permitting, which is always) the root's children. -/
def parseParts (md : Str) : Str × Option (List Node) :=
  let lines := splitLines md
  let tb := takeBlanks lines
  (tb.1, parseBlocks tb.2.length tb.2 [] [])

/-- Building a fresh document from text
(`MarkdownDocument(markdown)` / `FromString`). -/
def parse (md : Str) : Option Node :=
  match parseParts md with
  | (lt, some cs) => some (.doc lt cs false)
  | (_, none) => none

def ParseDoc (md : Str) : Node :=
  (parse md).getD (.doc [] [] false)

/-- Re-invoking `Parse` on an existing document: `_children` and
`_leading_trivia` are replaced, but the document's own `_dirty_self` flag is
not touched. -/
def reParse (n : Node) (md : Str) : Node :=
  match n with
  | .doc _ _ d =>
      match parseParts md with
      | (lt, some cs) => .doc lt cs d
      | (lt, none) => .doc lt [] d
  | n => n

mutual

/-- `MarkdownNode.IsDirty`: own flag or any dirty descendant. -/
def IsDirty : Node → Bool
  | .doc _ cs d => d || anyDirty cs
  | .heading _ cs d => d || anyDirty cs
  | .para _ _ cs d => d || anyDirty cs
  | .code _ d => d
  | .text _ _ _ _ d => d
  | .link _ d => d

def anyDirty : List Node → Bool
  | [] => false
  | n :: ns => IsDirty n || anyDirty ns

end

mutual

/-- `ToMarkdown` of every node kind: replay the captured original bytes when
neither the relevant flag(s) nor (where the source consults them) the
children are dirty, otherwise reconstruct from the structured fields. -/
def ToMarkdown : Node → Str
  | .doc lt cs _ => lt ++ ToMarkdownL cs
  | .heading f cs d =>
      (if d then
        f.preamble ++ f.titleLeading ++ f.titleCore ++ f.titleTrailing ++
          f.lineSuffix
       else f.rawLine) ++ f.blockSuffix ++ ToMarkdownL cs
  | .para raw bs cs d =>
      (if d || anyDirty cs then ToMarkdownL cs else raw) ++ bs
  | .code f d =>
      if d then
        f.openingIndent ++ f.fence ++ f.info ++ f.openingEol ++
          f.codeBodyCurrent ++
          f.closingIndent ++ f.closingFence ++ f.closingTrailing ++
          f.closingEol ++ f.blockSuffix
      else f.openingLine ++ f.codeBodyOriginal ++ f.closingLine ++ f.blockSuffix
  | .text raw leading core trailing d =>
      if d then leading ++ core ++ trailing else raw
  | .link f d =>
      if d then
        (if f.isImage then ['!'] else []) ++
          '[' :: (f.labelLeading ++ f.labelCore ++ f.labelTrailing) ++
          ']' :: '(' :: (f.hrefLeading ++ f.hrefCore ++ f.hrefTrailing) ++ [')']
      else f.rawOriginal

def ToMarkdownL : List Node → Str
  | [] => []
  | n :: ns => ToMarkdown n ++ ToMarkdownL ns

end

/-- `ToPlainText`: overridden on text (the serialized bytes) and link (the
label with its trivia); every other kind inherits
`ToString = _strip_linebreaks_only(ToMarkdown())`. -/
def ToPlainText (n : Node) : Str :=
  match n with
  | .text raw leading core trailing d =>
      ToMarkdown (.text raw leading core trailing d)
  | .link f _ => f.labelLeading ++ f.labelCore ++ f.labelTrailing
  | n => stripLinebreaksOnly (ToMarkdown n)

def joinPlain : List Node → Str
  | [] => []
  | n :: ns => ToPlainText n ++ joinPlain ns

/-- The `Text` property getter of every node kind (the base class, inherited
by the root, returns the empty string). -/
def getText : Node → Str
  | .doc _ _ _ => []
  | .heading f _ _ => f.titleCore
  | .para _ _ cs _ => pyStrip (joinPlain cs)
  | .code f _ => f.codeBodyCurrent
  | .text _ _ core _ _ => core
  | .link f _ => f.labelCore

/-- The error raised by a failed `node.Text = value` assignment:
the base class raises `AttributeError(f"{Type.value} does not support Text
assignment")`; `ParagraphNode` redefines `Text` with a getter only, so
assignment fails with Python's property-protocol `AttributeError` (which in
current CPython names the class: `property 'Text' of 'ParagraphNode' object
has no setter`). -/
inductive SetErr where
  | unsupported (kind : String)
  | noSetter (kind : String)
  deriving DecidableEq

/-- The `Text` setter of every node kind, as a state transformer returning
(resulting node, optional raised error).  A raising branch performs no
mutation before the `raise`, so it returns the node unchanged; a supporting
kind stores the (for code blocks: unstripped) value and calls `MarkDirty`. -/
def setText : Node → Str → Node × Option SetErr
  | .doc lt cs d, _ => (.doc lt cs d, some (.unsupported "Root"))
  | .para raw bs cs d, _ => (.para raw bs cs d, some (.noSetter "ParagraphNode"))
  | .heading f cs _, v => (.heading { f with titleCore := pyStrip v } cs true, none)
  | .code f _, v => (.code { f with codeBodyCurrent := v } true, none)
  | .text raw leading _ trailing _, v => (.text raw leading (pyStrip v) trailing true, none)
  | .link f _, v => (.link { f with labelCore := pyStrip v } true, none)

/-- The `Href` setter of `LinkNode`: store the stripped value and mark dirty.
(Assigning `.Href` on any other kind would merely attach an inert instance
attribute in Python; here it leaves the node unchanged.) -/
def setHref (n : Node) (v : Str) : Node :=
  match n with
  | .link f _ => .link { f with hrefCore := pyStrip v } true
  | n => n

/-- `MarkDirty`. -/
def markDirty (n : Node) : Node :=
  match n with
  | .doc lt cs _ => .doc lt cs true
  | .heading f cs _ => .heading f cs true
  | .para raw bs cs _ => .para raw bs cs true
  | .code f _ => .code f true
  | .text raw leading core trailing _ => .text raw leading core trailing true
  | .link f _ => .link f true

/-- The `_dirty_self` field. -/
def dirtySelfOf : Node → Bool
  | .doc _ _ d => d
  | .heading _ _ d => d
  | .para _ _ _ d => d
  | .code _ d => d
  | .text _ _ _ _ d => d
  | .link _ d => d

/-- Apply `f` to the node at a child-index path (the node reached by
`doc[i0][i1]...`), leaving everything else in place; out-of-range paths leave
the tree unchanged.  This models grabbing a node reference out of the tree
and mutating it in place. -/
def updateAt : List Nat → (Node → Node) → Node → Node
  | [], f, n => f n
  | i :: is, f, n =>
      let go : List Node → List Node := fun cs =>
        match cs[i]? with
        | some child => cs.take i ++ updateAt is f child :: cs.drop (i + 1)
        | none => cs
      match n with
      | .doc lt cs d => .doc lt (go cs) d
      | .heading hf cs d => .heading hf (go cs) d
      | .para raw bs cs d => .para raw bs (go cs) d
      | n => n

/-- The bytes the open part of the parse state will contribute to the final
serialization: accumulated root children first, then each open heading's raw
line, block suffix, and collected children, outermost heading first. -/
def stackRender : List Frame → Str
  | [] => []
  | (f, c) :: rest => stackRender rest ++ f.rawLine ++ f.blockSuffix ++ ToMarkdownL c

/-- The node kinds the inline scanner may produce: `TextNode` and `LinkNode`
(the latter covering `NodeType.Link` and `NodeType.Image`). -/
def isInlineLeaf : Node → Bool
  | .text _ _ _ _ _ => true
  | .link _ _ => true
  | _ => false

/-- Whether the kind overrides the `Text` setter: true for text, link/image,
code-block and heading nodes; false for the root (base-class setter raises)
and for paragraphs (getter-only property). -/
def supportsTextAssign : Node → Bool
  | .doc _ _ _ => false
  | .para _ _ _ _ => false
  | _ => true

/-! ### Helper lemmas -/

theorem joinLines_cons (l : Str) (ls : List Str) :
    joinLines (l :: ls) = l ++ joinLines ls := rfl

theorem joinLines_append (a b : List Str) :
    joinLines (a ++ b) = joinLines a ++ joinLines b := by
  induction a with
  | nil => rfl
  | cons x xs ih => simp [joinLines_cons, ih, List.append_assoc]

theorem ToMarkdownL_cons (n : Node) (ns : List Node) :
    ToMarkdownL (n :: ns) = ToMarkdown n ++ ToMarkdownL ns := rfl

theorem ToMarkdownL_append (a b : List Node) :
    ToMarkdownL (a ++ b) = ToMarkdownL a ++ ToMarkdownL b := by
  induction a with
  | nil => rfl
  | cons x xs ih => simp [ToMarkdownL_cons, ih, List.append_assoc]

theorem anyDirty_append (a b : List Node) :
    anyDirty (a ++ b) = (anyDirty a || anyDirty b) := by
  induction a with
  | nil => rfl
  | cons x xs ih => simp [anyDirty, ih, Bool.or_assoc]

theorem splitLinesAux_join (cur s : Str) :
    joinLines (splitLinesAux cur s) = cur ++ s := by
  induction cur, s using splitLinesAux.induct with
  | case1 => rfl
  | case2 cur h => simp [splitLinesAux, h, joinLines]
  | case3 cur rest ih =>
      simp only [joinLines] at ih ⊢
      simp [splitLinesAux, ih]
  | case4 cur rest hne ih =>
      rw [show splitLinesAux cur ('\r' :: rest) =
            (cur ++ ['\r']) :: splitLinesAux [] rest by
        cases rest with
        | nil => rfl
        | cons d rest2 =>
            have hd : ¬(d = '\n') := fun hh => hne rest2 (by rw [hh])
            simp [splitLinesAux, hd]]
      simp only [joinLines] at ih ⊢
      simp [ih]
  | case5 cur c rest h1 h2 hbr ih =>
      rw [show splitLinesAux cur (c :: rest) =
            (cur ++ [c]) :: splitLinesAux [] rest by
        have hc : ¬(c = '\r') := fun hh => h2 hh
        cases rest with
        | nil => simp [splitLinesAux, hc, hbr]
        | cons d rest2 => simp [splitLinesAux, hc, hbr]]
      simp only [joinLines] at ih ⊢
      simp [ih]
  | case6 cur c rest h1 h2 hbr ih =>
      rw [show splitLinesAux cur (c :: rest) = splitLinesAux (cur ++ [c]) rest by
        have hc : ¬(c = '\r') := fun hh => h2 hh
        cases rest with
        | nil => simp [splitLinesAux, hc, hbr]
        | cons d rest2 => simp [splitLinesAux, hc, hbr]]
      simp [ih]

theorem splitLines_join (s : Str) : joinLines (splitLines s) = s :=
  splitLinesAux_join [] s

theorem takeBlanks_join (ls : List Str) :
    (takeBlanks ls).1 ++ joinLines (takeBlanks ls).2 = joinLines ls := by
  induction ls using takeBlanks.induct with
  | case1 => rfl
  | case2 l ls hb ih => simp [takeBlanks, hb, joinLines_cons, ← ih, List.append_assoc]
  | case3 l ls hb => simp [takeBlanks, hb]

theorem takeBlanks_len (ls : List Str) :
    (takeBlanks ls).2.length ≤ ls.length := by
  induction ls using takeBlanks.induct with
  | case1 => simp [takeBlanks]
  | case2 l ls hb ih => simp [takeBlanks, hb]; omega
  | case3 l ls hb => simp [takeBlanks, hb]

theorem splitAtFirst_eq {ch : Char} {s a b : Str}
    (h : splitAtFirst ch s = some (a, b)) : s = a ++ ch :: b := by
  induction s using splitAtFirst.induct ch generalizing a b with
  | case1 => simp [splitAtFirst] at h
  | case2 cs => simp [splitAtFirst] at h; simp [← h.1, ← h.2]
  | case3 c cs hne ih =>
      simp [splitAtFirst, hne] at h
      obtain ⟨p, hp, rfl, rfl⟩ := h
      simp [ih hp]

theorem linkOpen_eq {im : Bool} {s t : Str} (h : linkOpen im s = some t) :
    s = (if im then ['!', '['] else ['[']) ++ t := by
  cases im
  · unfold linkOpen at h
    simp only [Bool.false_eq_true, if_false] at h
    split at h
    · next c t' => by_cases hc : c = '[' <;> simp_all
    · simp_all
  · unfold linkOpen at h
    simp only [if_true] at h
    split at h
    · next c1 c2 t' => by_cases hc : c1 = '!' && c2 = '[' <;> simp_all
    · simp_all

theorem tryParseLink_eq {im : Bool} {s raw label href rest : Str}
    (h : tryParseLink im s = some (raw, label, href, rest)) :
    s = raw ++ rest ∧ 1 ≤ raw.length := by
  unfold tryParseLink at h
  split at h
  · exact absurd h (by simp)
  · next body hopen =>
      split at h
      · exact absurd h (by simp)
      · next label' r2 hsplit =>
          split at h
          · next r3 =>
              split at h
              · exact absurd h (by simp)
              · next href' r4 hsplit2 =>
                  simp only [Option.some.injEq, Prod.mk.injEq] at h
                  obtain ⟨hraw, hlab, hhref, hrest⟩ := h
                  subst hraw hlab hhref hrest
                  have e0 := linkOpen_eq hopen
                  have e1 := splitAtFirst_eq hsplit
                  have e2 := splitAtFirst_eq hsplit2
                  subst e0 e1 e2
                  cases im <;> simp
          · exact absurd h (by simp)

theorem mkTextNode_render (raw : Str) : ToMarkdown (mkTextNode raw) = raw := by
  simp [mkTextNode, ToMarkdown]

theorem mkLinkNode_render (raw label href : Str) (im : Bool) :
    ToMarkdown (mkLinkNode raw label href im) = raw := by
  simp [mkLinkNode, ToMarkdown]

theorem mkCodeNode_render (o b c bs : Str) :
    ToMarkdown (mkCodeNode o b c bs) = o ++ b ++ c ++ bs := by
  simp [mkCodeNode, ToMarkdown, List.append_assoc]

theorem mkHeadingNode_render (f : HeadingF) (cs : List Node) :
    ToMarkdown (mkHeadingNode f cs) =
      f.rawLine ++ f.blockSuffix ++ ToMarkdownL cs := by
  simp [mkHeadingNode, ToMarkdown, List.append_assoc]

theorem flushBuf_render (buf : Str) : ToMarkdownL (flushBuf buf) = buf := by
  by_cases h : buf = ([] : Str) <;>
    simp [flushBuf, h, ToMarkdownL, mkTextNode_render]

theorem flushBuf_clean (buf : Str) : anyDirty (flushBuf buf) = false := by
  by_cases h : buf = ([] : Str) <;>
    simp [flushBuf, h, anyDirty, IsDirty, mkTextNode]

theorem parseInlinesAux_render (fuel : Nat) (buf s : Str) :
    s.length ≤ fuel → ToMarkdownL (parseInlinesAux fuel buf s) = buf ++ s := by
  induction fuel, buf, s using parseInlinesAux.induct with
  | case1 buf s =>
      intro hle
      have hs : s = [] := List.length_eq_zero.mp (Nat.le_zero.mp hle)
      subst hs
      simp [parseInlinesAux, flushBuf_render]
  | case2 fuel buf =>
      intro _
      simp [parseInlinesAux, flushBuf_render]
  | case3 fuel buf c cs hguard raw label href rest htry ih =>
      intro hle
      obtain ⟨heq, hraw⟩ := tryParseLink_eq htry
      have hlen : rest.length ≤ fuel := by
        have := congrArg List.length heq
        simp [List.length_append] at this
        simp [List.length_cons] at hle
        omega
      rw [show parseInlinesAux (fuel + 1) buf (c :: cs) =
            flushBuf buf ++ mkLinkNode raw label href true ::
              parseInlinesAux fuel [] rest by
        simp only [parseInlinesAux, hguard, if_true, htry]]
      rw [ToMarkdownL_append, ToMarkdownL_cons, flushBuf_render,
        mkLinkNode_render, ih hlen]
      simp [heq]
  | case4 fuel buf c cs hguard htry ih =>
      intro hle
      have hlen : cs.length ≤ fuel := by simp [List.length_cons] at hle; omega
      rw [show parseInlinesAux (fuel + 1) buf (c :: cs) =
            parseInlinesAux fuel (buf ++ [c]) cs by
        simp only [parseInlinesAux, hguard, if_true, htry]]
      rw [ih hlen]
      simp
  | case5 fuel buf cs raw label href rest hguard htry ih =>
      intro hle
      obtain ⟨heq, hraw⟩ := tryParseLink_eq htry
      have hlen : rest.length ≤ fuel := by
        have := congrArg List.length heq
        simp [List.length_append] at this
        simp [List.length_cons] at hle
        omega
      rw [show parseInlinesAux (fuel + 1) buf ('[' :: cs) =
            flushBuf buf ++ mkLinkNode raw label href false ::
              parseInlinesAux fuel [] rest by
        simp only [parseInlinesAux, hguard, if_false, htry]
        simp]
      rw [ToMarkdownL_append, ToMarkdownL_cons, flushBuf_render,
        mkLinkNode_render, ih hlen]
      simp [heq]
  | case6 fuel buf cs hguard htry ih =>
      intro hle
      have hlen : cs.length ≤ fuel := by simp [List.length_cons] at hle; omega
      rw [show parseInlinesAux (fuel + 1) buf ('[' :: cs) =
            parseInlinesAux fuel (buf ++ ['[']) cs by
        simp only [parseInlinesAux, hguard, if_false, htry]
        simp]
      rw [ih hlen]
      simp
  | case7 fuel buf c cs hguard hc ih =>
      intro hle
      have hlen : cs.length ≤ fuel := by simp [List.length_cons] at hle; omega
      rw [show parseInlinesAux (fuel + 1) buf (c :: cs) =
            parseInlinesAux fuel (buf ++ [c]) cs by
        simp only [parseInlinesAux, hguard, hc, if_false]
        simp [hc]]
      rw [ih hlen]
      simp

theorem parseInlinesAux_clean (fuel : Nat) (buf s : Str) :
    anyDirty (parseInlinesAux fuel buf s) = false := by
  induction fuel, buf, s using parseInlinesAux.induct with
  | case1 buf s => simp [parseInlinesAux, flushBuf_clean]
  | case2 fuel buf => simp [parseInlinesAux, flushBuf_clean]
  | case3 fuel buf c cs hguard raw label href rest htry ih =>
      rw [show parseInlinesAux (fuel + 1) buf (c :: cs) =
            flushBuf buf ++ mkLinkNode raw label href true ::
              parseInlinesAux fuel [] rest by
        simp only [parseInlinesAux, hguard, if_true, htry]]
      simp [anyDirty_append, anyDirty, flushBuf_clean, ih, IsDirty, mkLinkNode]
  | case4 fuel buf c cs hguard htry ih =>
      rw [show parseInlinesAux (fuel + 1) buf (c :: cs) =
            parseInlinesAux fuel (buf ++ [c]) cs by
        simp only [parseInlinesAux, hguard, if_true, htry]]
      exact ih
  | case5 fuel buf cs raw label href rest hguard htry ih =>
      rw [show parseInlinesAux (fuel + 1) buf ('[' :: cs) =
            flushBuf buf ++ mkLinkNode raw label href false ::
              parseInlinesAux fuel [] rest by
        simp only [parseInlinesAux, hguard, if_false, htry]
        simp]
      simp [anyDirty_append, anyDirty, flushBuf_clean, ih, IsDirty, mkLinkNode]
  | case6 fuel buf cs hguard htry ih =>
      rw [show parseInlinesAux (fuel + 1) buf ('[' :: cs) =
            parseInlinesAux fuel (buf ++ ['[']) cs by
        simp only [parseInlinesAux, hguard, if_false, htry]
        simp]
      exact ih
  | case7 fuel buf c cs hguard hc ih =>
      rw [show parseInlinesAux (fuel + 1) buf (c :: cs) =
            parseInlinesAux fuel (buf ++ [c]) cs by
        simp only [parseInlinesAux, hguard, hc, if_false]
        simp [hc]]
      exact ih

theorem parseInlines_render (raw : Str) :
    ToMarkdownL (parseInlines raw) = raw := by
  simpa using parseInlinesAux_render raw.length [] raw (Nat.le_refl _)

theorem parseInlines_clean (raw : Str) :
    anyDirty (parseInlines raw) = false :=
  parseInlinesAux_clean raw.length [] raw

theorem dropWhile_len (p : Str → Bool) (l : List Str) :
    (l.dropWhile p).length ≤ l.length := by
  induction l with
  | nil => simp
  | cons x xs ih =>
      by_cases hp : p x
      · simp [List.dropWhile_cons, hp]
        omega
      · simp [List.dropWhile_cons, hp]

theorem scanFence_eq {c : Char} {n : Nat} {ls body : List Str} {close : Str}
    {r : List Str} (h : scanFence c n ls = some (body, close, r)) :
    ls = body ++ close :: r := by
  induction ls generalizing body with
  | nil => simp [scanFence] at h
  | cons l ls ih =>
      by_cases hf : fenceCloseOk c n l
      · simp [scanFence, hf] at h
        obtain ⟨rfl, rfl, rfl⟩ := h
        rfl
      · simp only [scanFence, hf, if_false, Bool.false_eq_true,
          Option.map_eq_some'] at h
        obtain ⟨⟨b', cl', r'⟩, hs, hp⟩ := h
        simp only [Prod.mk.injEq] at hp
        obtain ⟨rfl, rfl, rfl⟩ := hp
        rw [ih hs]
        simp

theorem stepFence_spec {line : Str} {rest : List Str} {node : Node}
    {rest3 : List Str} (h : stepFence line rest = some (node, rest3)) :
    ToMarkdown node ++ joinLines rest3 = line ++ joinLines rest ∧
      rest3.length ≤ rest.length := by
  unfold stepFence at h
  split at h
  · exact absurd h (by simp)
  · next fo hfo =>
      split at h
      · exact absurd h (by simp)
      · next body close rest2 hsc =>
          simp only [Option.some.injEq, Prod.mk.injEq] at h
          obtain ⟨rfl, rfl⟩ := h
          have hre : rest = body ++ close :: rest2 := scanFence_eq hsc
          constructor
          · rw [mkCodeNode_render, hre, joinLines_append, joinLines_cons,
              ← takeBlanks_join rest2]
            simp [List.append_assoc]
          · calc (takeBlanks rest2).2.length
                ≤ rest2.length := takeBlanks_len rest2
              _ ≤ rest.length := by simp [hre]; omega

theorem pushNode_render (stack : List Frame) (acc : List Node) (n : Node) :
    ToMarkdownL (pushNode stack acc n).2 ++ stackRender (pushNode stack acc n).1 =
      ToMarkdownL acc ++ stackRender stack ++ ToMarkdown n := by
  cases stack with
  | nil => simp [pushNode, stackRender, ToMarkdownL_append, ToMarkdownL]
  | cons fr rest =>
      obtain ⟨f, c⟩ := fr
      simp [pushNode, stackRender, ToMarkdownL_append, ToMarkdownL,
        List.append_assoc]

theorem popToAux_render (lvl : Nat) (st : List Frame) (h : Node)
    (acc : List Node) :
    ToMarkdownL (popToAux lvl st h acc).2 ++ stackRender (popToAux lvl st h acc).1 =
      ToMarkdownL acc ++ stackRender st ++ ToMarkdown h := by
  induction st generalizing h with
  | nil => simp [popToAux, stackRender, ToMarkdownL_append, ToMarkdownL]
  | cons fr rest ih =>
      obtain ⟨g, d⟩ := fr
      by_cases hl : lvl ≤ g.level
      · simp only [popToAux, hl, if_true]
        rw [ih]
        rw [mkHeadingNode_render, ToMarkdownL_append]
        simp [stackRender, ToMarkdownL, List.append_assoc]
      · simp only [popToAux, hl, if_false]
        simp [stackRender, ToMarkdownL_append, ToMarkdownL, List.append_assoc]

theorem popTo_render (lvl : Nat) (st : List Frame) (acc : List Node) :
    ToMarkdownL (popTo lvl st acc).2 ++ stackRender (popTo lvl st acc).1 =
      ToMarkdownL acc ++ stackRender st := by
  cases st with
  | nil => simp [popTo, stackRender]
  | cons fr rest =>
      obtain ⟨f, c⟩ := fr
      by_cases hl : lvl ≤ f.level
      · simp only [popTo, hl, if_true]
        rw [popToAux_render, mkHeadingNode_render]
        simp [stackRender, List.append_assoc]
      · simp only [popTo, hl, if_false]

theorem collapseAux_render (st : List Frame) (h : Node) (acc : List Node) :
    ToMarkdownL (collapseAux st h acc) =
      ToMarkdownL acc ++ stackRender st ++ ToMarkdown h := by
  induction st generalizing h with
  | nil => simp [collapseAux, stackRender, ToMarkdownL_append, ToMarkdownL]
  | cons fr rest ih =>
      obtain ⟨g, d⟩ := fr
      simp only [collapseAux]
      rw [ih, mkHeadingNode_render, ToMarkdownL_append]
      simp [stackRender, ToMarkdownL, List.append_assoc]

theorem collapse_render (st : List Frame) (acc : List Node) :
    ToMarkdownL (collapse st acc) = ToMarkdownL acc ++ stackRender st := by
  cases st with
  | nil => simp [collapse, stackRender]
  | cons fr rest =>
      obtain ⟨f, c⟩ := fr
      rw [show collapse ((f, c) :: rest) acc =
            collapseAux rest (mkHeadingNode f c) acc from rfl]
      rw [collapseAux_render, mkHeadingNode_render]
      simp [stackRender, List.append_assoc]

theorem parseBlocks_spec (fuel : Nat) :
    ∀ (lines : List Str) (stack : List Frame) (acc : List Node),
      lines.length ≤ fuel →
      ∃ cs, parseBlocks fuel lines stack acc = some cs ∧
        ToMarkdownL cs = ToMarkdownL acc ++ stackRender stack ++ joinLines lines := by
  induction fuel with
  | zero =>
      intro lines stack acc hle
      have hl : lines = [] := List.length_eq_zero.mp (Nat.le_zero.mp hle)
      subst hl
      exact ⟨collapse stack acc, rfl, by
        rw [collapse_render]; simp [joinLines]⟩
  | succ fuel ih =>
      intro lines stack acc hle
      cases lines with
      | nil =>
          exact ⟨collapse stack acc, rfl, by
            rw [collapse_render]; simp [joinLines]⟩
      | cons line rest =>
          have hrest : rest.length ≤ fuel := by
            simp [List.length_cons] at hle; omega
          cases hsf : stepFence line rest with
          | some p =>
              obtain ⟨node, rest3⟩ := p
              obtain ⟨hrender, hlen⟩ := stepFence_spec hsf
              obtain ⟨cs, hcs, hTL⟩ :=
                ih rest3 (pushNode stack acc node).1 (pushNode stack acc node).2
                  (Nat.le_trans hlen hrest)
              refine ⟨cs, ?_, ?_⟩
              · simp only [parseBlocks, hsf]
                exact hcs
              · rw [hTL]
                calc ToMarkdownL (pushNode stack acc node).2 ++
                      stackRender (pushNode stack acc node).1 ++ joinLines rest3
                    = ToMarkdownL acc ++ stackRender stack ++ ToMarkdown node ++
                        joinLines rest3 := by rw [pushNode_render]
                  _ = ToMarkdownL acc ++ stackRender stack ++
                        (ToMarkdown node ++ joinLines rest3) := by
                        simp [List.append_assoc]
                  _ = ToMarkdownL acc ++ stackRender stack ++
                        (line ++ joinLines rest) := by rw [hrender]
                  _ = ToMarkdownL acc ++ stackRender stack ++
                        joinLines (line :: rest) := by rw [joinLines_cons]
          | none =>
              cases hhm : headingMatch line with
              | some hm =>
                  obtain ⟨cs, hcs, hTL⟩ :=
                    ih (takeBlanks rest).2
                      ((mkHeadingF hm line (takeBlanks rest).1, []) ::
                        (popTo (mkHeadingF hm line (takeBlanks rest).1).level
                          stack acc).1)
                      ((popTo (mkHeadingF hm line (takeBlanks rest).1).level
                          stack acc).2)
                      (Nat.le_trans (takeBlanks_len rest) hrest)
                  refine ⟨cs, ?_, ?_⟩
                  · simp only [parseBlocks, hsf, hhm]
                    exact hcs
                  · rw [hTL]
                    rw [show stackRender
                          ((mkHeadingF hm line (takeBlanks rest).1, []) ::
                            (popTo (mkHeadingF hm line (takeBlanks rest).1).level
                              stack acc).1) =
                          stackRender (popTo
                            (mkHeadingF hm line (takeBlanks rest).1).level
                              stack acc).1 ++ line ++ (takeBlanks rest).1 from by
                      simp [stackRender, mkHeadingF, ToMarkdownL]]
                    calc ToMarkdownL (popTo
                            (mkHeadingF hm line (takeBlanks rest).1).level
                            stack acc).2 ++
                          (stackRender (popTo
                            (mkHeadingF hm line (takeBlanks rest).1).level
                            stack acc).1 ++ line ++ (takeBlanks rest).1) ++
                          joinLines (takeBlanks rest).2
                        = ToMarkdownL (popTo
                            (mkHeadingF hm line (takeBlanks rest).1).level
                            stack acc).2 ++
                          stackRender (popTo
                            (mkHeadingF hm line (takeBlanks rest).1).level
                            stack acc).1 ++ line ++
                          ((takeBlanks rest).1 ++ joinLines (takeBlanks rest).2) := by
                          simp [List.append_assoc]
                      _ = ToMarkdownL acc ++ stackRender stack ++ line ++
                            joinLines rest := by
                          rw [popTo_render, takeBlanks_join]
                      _ = ToMarkdownL acc ++ stackRender stack ++
                            joinLines (line :: rest) := by
                          rw [joinLines_cons]; simp [List.append_assoc]
              | none =>
                  obtain ⟨cs, hcs, hTL⟩ :=
                    ih (takeBlanks (rest.dropWhile (fun l => !paraBreak l))).2
                      (pushNode stack acc
                        (Node.para (line ++ joinLines
                            (rest.takeWhile (fun l => !paraBreak l)))
                          (takeBlanks (rest.dropWhile (fun l => !paraBreak l))).1
                          (parseInlines (line ++ joinLines
                            (rest.takeWhile (fun l => !paraBreak l))))
                          false)).1
                      (pushNode stack acc
                        (Node.para (line ++ joinLines
                            (rest.takeWhile (fun l => !paraBreak l)))
                          (takeBlanks (rest.dropWhile (fun l => !paraBreak l))).1
                          (parseInlines (line ++ joinLines
                            (rest.takeWhile (fun l => !paraBreak l))))
                          false)).2
                      (Nat.le_trans
                        (Nat.le_trans
                          (takeBlanks_len _)
                          (dropWhile_len _ rest))
                        hrest)
                  refine ⟨cs, ?_, ?_⟩
                  · simp only [parseBlocks, hsf, hhm]
                    exact hcs
                  · rw [hTL, pushNode_render]
                    rw [show ToMarkdown (Node.para (line ++ joinLines
                          (rest.takeWhile (fun l => !paraBreak l)))
                          (takeBlanks (rest.dropWhile (fun l => !paraBreak l))).1
                          (parseInlines (line ++ joinLines
                            (rest.takeWhile (fun l => !paraBreak l))))
                          false) =
                        line ++ joinLines (rest.takeWhile (fun l => !paraBreak l)) ++
                          (takeBlanks (rest.dropWhile (fun l => !paraBreak l))).1 from by
                      simp [ToMarkdown, parseInlines_clean]]
                    rw [show joinLines (line :: rest) =
                          line ++ joinLines (rest.takeWhile (fun l => !paraBreak l)) ++
                            ((takeBlanks (rest.dropWhile (fun l => !paraBreak l))).1 ++
                              joinLines (takeBlanks
                                (rest.dropWhile (fun l => !paraBreak l))).2) from by
                      rw [takeBlanks_join, joinLines_cons]
                      conv_lhs => rw [show rest =
                        rest.takeWhile (fun l => !paraBreak l) ++
                          rest.dropWhile (fun l => !paraBreak l) from
                        (List.takeWhile_append_dropWhile _ _).symm]
                      rw [joinLines_append]
                      simp [List.append_assoc]]
                    simp [List.append_assoc]

/-- Round-trip of the whole document build. -/
theorem parse_spec (md : Str) :
    ∃ d, parse md = some d ∧ ToMarkdown d = md := by
  obtain ⟨cs, hcs, hTL⟩ :=
    parseBlocks_spec (takeBlanks (splitLines md)).2.length
      (takeBlanks (splitLines md)).2 [] [] (Nat.le_refl _)
  refine ⟨.doc (takeBlanks (splitLines md)).1 cs false, ?_, ?_⟩
  · simp only [parse, parseParts, hcs]
  · show (takeBlanks (splitLines md)).1 ++ ToMarkdownL cs = md
    rw [hTL]
    simp only [ToMarkdownL, stackRender, List.nil_append]
    rw [takeBlanks_join, splitLines_join]

theorem parseInlinesAux_leaves (fuel : Nat) (buf s : Str) :
    (parseInlinesAux fuel buf s).all isInlineLeaf = true := by
  have hflush : ∀ b : Str, (flushBuf b).all isInlineLeaf = true := by
    intro b
    by_cases hb : b = ([] : Str) <;> simp [flushBuf, hb, mkTextNode, isInlineLeaf]
  induction fuel, buf, s using parseInlinesAux.induct with
  | case1 buf s => simpa [parseInlinesAux] using hflush buf
  | case2 fuel buf => simpa [parseInlinesAux] using hflush buf
  | case3 fuel buf c cs hguard raw label href rest htry ih =>
      rw [show parseInlinesAux (fuel + 1) buf (c :: cs) =
            flushBuf buf ++ mkLinkNode raw label href true ::
              parseInlinesAux fuel [] rest by
        simp only [parseInlinesAux, hguard, if_true, htry]]
      simp only [List.all_append, List.all_cons, hflush, ih, Bool.and_true,
        Bool.true_and]
      simp [mkLinkNode, isInlineLeaf]
  | case4 fuel buf c cs hguard htry ih =>
      rw [show parseInlinesAux (fuel + 1) buf (c :: cs) =
            parseInlinesAux fuel (buf ++ [c]) cs by
        simp only [parseInlinesAux, hguard, if_true, htry]]
      exact ih
  | case5 fuel buf cs raw label href rest hguard htry ih =>
      rw [show parseInlinesAux (fuel + 1) buf ('[' :: cs) =
            flushBuf buf ++ mkLinkNode raw label href false ::
              parseInlinesAux fuel [] rest by
        simp only [parseInlinesAux, hguard, if_false, htry]
        simp]
      simp only [List.all_append, List.all_cons, hflush, ih, Bool.and_true,
        Bool.true_and]
      simp [mkLinkNode, isInlineLeaf]
  | case6 fuel buf cs hguard htry ih =>
      rw [show parseInlinesAux (fuel + 1) buf ('[' :: cs) =
            parseInlinesAux fuel (buf ++ ['[']) cs by
        simp only [parseInlinesAux, hguard, if_false, htry]
        simp]
      exact ih
  | case7 fuel buf c cs hguard hc ih =>
      rw [show parseInlinesAux (fuel + 1) buf (c :: cs) =
            parseInlinesAux fuel (buf ++ [c]) cs by
        simp only [parseInlinesAux, hguard, hc, if_false]
        simp [hc]]
      exact ih

theorem popToAux_levels (lvl : Nat) (st : List Frame) (h : Node)
    (acc : List Node) :
    ((popToAux lvl st h acc).1).map (fun fr => fr.1.level) =
      (st.map (fun fr => fr.1.level)).dropWhile (fun x => decide (lvl ≤ x)) := by
  induction st generalizing h with
  | nil => simp [popToAux]
  | cons fr rest ih =>
      obtain ⟨g, d⟩ := fr
      by_cases hl : lvl ≤ g.level
      · simp only [popToAux, hl, if_true]
        rw [ih]
        simp [List.dropWhile_cons, hl]
      · simp only [popToAux, hl, if_false]
        simp [List.dropWhile_cons, hl]

theorem popTo_levels (lvl : Nat) (st : List Frame) (acc : List Node) :
    ((popTo lvl st acc).1).map (fun fr => fr.1.level) =
      (st.map (fun fr => fr.1.level)).dropWhile (fun x => decide (lvl ≤ x)) := by
  cases st with
  | nil => simp [popTo]
  | cons fr rest =>
      obtain ⟨f, c⟩ := fr
      by_cases hl : lvl ≤ f.level
      · simp only [popTo, hl, if_true]
        rw [popToAux_levels]
        simp [List.dropWhile_cons, hl]
      · simp only [popTo, hl, if_false]
        simp [List.dropWhile_cons, hl]

theorem fenceCloseOk_replicate_same (n m : Nat) (c : Char)
    (hc : c = '`' ∨ c = '~') :
    fenceCloseOk c n (List.replicate m c ++ ['\n']) = decide (n ≤ m) := by
  have hst : isSpaceTab c = false := by
    rcases hc with rfl | rfl <;> rfl
  have hnl : ¬(('\n' : Char) = c) := by
    rcases hc with rfl | rfl <;> decide
  have htw : ∀ k : Nat, (List.replicate k c ++ ['\n']).takeWhile
      (fun x => decide (x = c)) = List.replicate k c := by
    intro k
    induction k with
    | zero => simp [List.takeWhile_cons, hnl]
    | succ j ih => simp [List.replicate_succ, List.takeWhile_cons, ih, hnl]
  have hdw : (List.replicate m c ++ ['\n']).dropWhile isSpaceTab =
      List.replicate m c ++ ['\n'] := by
    cases m with
    | zero => simp [List.dropWhile_cons, isSpaceTab]
    | succ k => simp [List.replicate_succ, List.dropWhile_cons, hst]
  have hdrop : (List.replicate m c ++ ['\n']).drop m = ['\n'] := by
    have h1 := List.drop_left (List.replicate m c) ['\n']
    rwa [List.length_replicate] at h1
  simp only [fenceCloseOk, hdw, htw m, List.length_replicate, hdrop]
  simp [fenceCloseOk.closeTailOk]

theorem fenceCloseOk_replicate_other (n m : Nat) (hn : 1 ≤ n) :
    fenceCloseOk '`' n (List.replicate m '~' ++ ['\n']) = false := by
  have hdw : (List.replicate m '~' ++ ['\n']).dropWhile isSpaceTab =
      List.replicate m '~' ++ ['\n'] := by
    cases m with
    | zero => simp [List.dropWhile_cons, isSpaceTab]
    | succ k => simp [List.replicate_succ, List.dropWhile_cons, isSpaceTab]
  have htw : (List.replicate m '~' ++ ['\n']).takeWhile
      (fun x => decide (x = '`')) = [] := by
    cases m with
    | zero => simp [List.takeWhile_cons]
    | succ k => simp [List.replicate_succ, List.takeWhile_cons]
  simp only [fenceCloseOk, hdw, htw, List.length_nil]
  simp
  omega

/-! ### Claims -/

/-- C1: Round-trip fidelity: for every input string, building a document and
serializing it with no intervening mutation returns exactly the input;
equivalently, the serialization is the leading trivia concatenated with the
serialized forms of all top-level children, and it reproduces the input
byte-for-byte. -/
theorem roundTrip_fidelity (md : Str) :
    ToMarkdown (ParseDoc md) = md ∧
    ∀ (lt : Str) (cs : List Node) (b : Bool),
      ToMarkdown (.doc lt cs b) = lt ++ ToMarkdownL cs := by
  obtain ⟨d, hd, hr⟩ := parse_spec md
  exact ⟨by simp [ParseDoc, hd, hr], fun lt cs b => rfl⟩

/-- C2: Minimal-diff mutation: in the document parsed from an input with
three independent paragraphs, assigning any new value to the middle
paragraph's single link `Href` and serializing changes only that link's href
byte span: the output is the unchanged prefix, the stripped new href, and the
unchanged suffix, where prefix and suffix are exactly the bytes surrounding
the original href in the input. -/
theorem minimalDiff_link_mutation (v : Str) :
    ToMarkdown (updateAt [1, 1] (fun n => setHref n v)
        (ParseDoc "Alpha one.\n\nSee [docs](http://x) page.\n\nOmega end.\n".data)) =
      "Alpha one.\n\nSee [docs](".data ++ pyStrip v ++
        ") page.\n\nOmega end.\n".data ∧
    "Alpha one.\n\nSee [docs](http://x) page.\n\nOmega end.\n".data =
      "Alpha one.\n\nSee [docs](".data ++ "http://x".data ++
        ") page.\n\nOmega end.\n".data := by
  constructor
  · have hdoc : ParseDoc
        "Alpha one.\n\nSee [docs](http://x) page.\n\nOmega end.\n".data =
        .doc [] [
          .para "Alpha one.\n".data "\n".data
            [.text "Alpha one.\n".data [] "Alpha one.".data "\n".data false]
            false,
          .para "See [docs](http://x) page.\n".data "\n".data [
            .text "See ".data [] "See".data " ".data false,
            .link ⟨false, "[docs](http://x)".data, [], "docs".data, [], [],
              "http://x".data, []⟩ false,
            .text " page.\n".data " ".data "page.".data "\n".data false] false,
          .para "Omega end.\n".data []
            [.text "Omega end.\n".data [] "Omega end.".data "\n".data false]
            false] false := by rfl
    rw [hdoc]
    show ToMarkdown (.doc [] [
          .para "Alpha one.\n".data "\n".data
            [.text "Alpha one.\n".data [] "Alpha one.".data "\n".data false]
            false,
          .para "See [docs](http://x) page.\n".data "\n".data [
            .text "See ".data [] "See".data " ".data false,
            .link ⟨false, "[docs](http://x)".data, [], "docs".data, [], [],
              pyStrip v, []⟩ true,
            .text " page.\n".data " ".data "page.".data "\n".data false] false,
          .para "Omega end.\n".data []
            [.text "Omega end.\n".data [] "Omega end.".data "\n".data false]
            false] false) =
        "Alpha one.\n\nSee [docs](".data ++ pyStrip v ++
          ") page.\n\nOmega end.\n".data
    simp only [ToMarkdown, ToMarkdownL, IsDirty, anyDirty, Bool.or_true,
      Bool.true_or, Bool.or_false, Bool.false_or, if_true, if_false,
      List.append_nil, List.nil_append, List.append_assoc, List.cons_append]
    rfl
  · rfl

/-- C3: Fence matching: a 4-backtick opener is not closed by a 3-backtick
line (the line is absorbed into the code body and a 4-backtick-or-longer line
of the same character closes it); with no valid closer before end of input
the region is reparsed as paragraph content, not an error; and in general the
closing-line test accepts a same-character line exactly when its run length
is at least the opening length, never a line of the other fence character. -/
theorem fence_matching :
    (ParseDoc "````js\nabc\n```\n`````\n".data =
      .doc [] [.code ⟨"````js\n".data, "abc\n```\n".data, "`````\n".data, [],
        [], "````".data, "js".data, "\n".data,
        [], "`````".data, [], "\n".data, "abc\n```\n".data⟩ false] false) ∧
    (ParseDoc "````\nabc\n```\n".data =
      .doc [] [
        .para "````\nabc\n".data []
          [.text "````\nabc\n".data [] "````\nabc".data "\n".data false] false,
        .para "```\n".data []
          [.text "```\n".data [] "```".data "\n".data false] false] false) ∧
    (∀ (n m : Nat) (c : Char), (c = '`' ∨ c = '~') →
      fenceCloseOk c n (List.replicate m c ++ ['\n']) = decide (n ≤ m)) ∧
    (∀ (n m : Nat), 1 ≤ n →
      fenceCloseOk '`' n (List.replicate m '~' ++ ['\n']) = false) :=
  ⟨by rfl, by rfl, fenceCloseOk_replicate_same, fenceCloseOk_replicate_other⟩

theorem fence_matching_witness :
    fenceCloseOk '`' 4 (List.replicate 3 '`' ++ ['\n']) = decide (4 ≤ 3) ∧
    fenceCloseOk '`' 4 (List.replicate 5 '`' ++ ['\n']) = decide (4 ≤ 5) ∧
    fenceCloseOk '`' 4 (List.replicate 4 '~' ++ ['\n']) = false :=
  ⟨fence_matching.2.2.1 4 3 '`' (Or.inl rfl),
   fence_matching.2.2.1 4 5 '`' (Or.inl rfl),
   fence_matching.2.2.2 4 4 (by decide)⟩

/-- C4: Parser totality and termination: for every input string — including
unterminated fences handled by the rewind fallback — `Parse` terminates and
produces a document tree (the out-of-fuel marker `none` is never returned:
each loop iteration consumes at least one line).  The embedding of `Parse`
has no raising operation, matching the source, where only the `Text` setter
raises. -/
theorem parser_totality (md : Str) : ∃ d, parse md = some d := by
  obtain ⟨d, hd, _⟩ := parse_spec md
  exact ⟨d, hd⟩

/-- C5: Heading nesting: parsing `"# A\n## B\n### C\n## D\n"` yields A as the
sole top-level child with children `[B, D]` in order, where B's sole child is
C — so D is a sibling of B, not a descendant of C; and on each heading line
the open-heading stack is popped down to (exactly) the first entry with level
strictly less than the new heading's level. -/
theorem heading_nesting :
    (ParseDoc "# A\n## B\n### C\n## D\n".data =
      .doc [] [
        .heading ⟨1, "# A\n".data, "# ".data, [], "A".data, [], "\n".data, []⟩ [
          .heading ⟨2, "## B\n".data, "## ".data, [], "B".data, [], "\n".data,
              []⟩ [
            .heading ⟨3, "### C\n".data, "### ".data, [], "C".data, [],
              "\n".data, []⟩ [] false] false,
          .heading ⟨2, "## D\n".data, "## ".data, [], "D".data, [], "\n".data,
            []⟩ [] false] false] false) ∧
    ∀ (lvl : Nat) (st : List Frame) (acc : List Node),
      ((popTo lvl st acc).1).map (fun fr => fr.1.level) =
        (st.map (fun fr => fr.1.level)).dropWhile (fun x => decide (lvl ≤ x)) :=
  ⟨by rfl, popTo_levels⟩

/-- C6: Inline scanner reconstruction: for every paragraph raw string the
inline scanner produces a finite ordered sequence of Text/Link/Image leaves
whose concatenated serialized (unmutated) text equals the input exactly. -/
theorem inline_scanner_reconstruction (raw : Str) :
    ToMarkdownL (parseInlines raw) = raw ∧
    (parseInlines raw).all isInlineLeaf = true :=
  ⟨parseInlines_render raw, parseInlinesAux_leaves raw.length [] raw⟩

/-- C7: Capability error on unsupported Text assignment: setting `Text` on
the root raises the capability `AttributeError` naming the kind (`Root`), and
on a paragraph (whose `Text` property is getter-only) the property-protocol
`AttributeError`; both leave the node untouched.  In general the assignment
returns no error exactly on the kinds that support it, so it never silently
succeeds or no-ops on an unsupported kind. -/
theorem capability_error_on_text_assignment :
    (∀ (lt : Str) (cs : List Node) (b : Bool) (v : Str),
      setText (.doc lt cs b) v = (.doc lt cs b, some (.unsupported "Root"))) ∧
    (∀ (raw bs : Str) (cs : List Node) (b : Bool) (v : Str),
      setText (.para raw bs cs b) v =
        (.para raw bs cs b, some (.noSetter "ParagraphNode"))) ∧
    (∀ (n : Node) (v : Str),
      (setText n v).2 = none ↔ supportsTextAssign n = true) := by
  refine ⟨fun lt cs b v => rfl, fun raw bs cs b v => rfl, fun n v => ?_⟩
  cases n <;> simp [setText, supportsTextAssign]

/-- C8 counterexample: the dirty state is not monotone across `Parse`:
after parsing `"[a](b)\n"` and setting the link's `Text` (marking it dirty,
so the document reports `IsDirty`), re-invoking `Parse` discards the children
and the document's `IsDirty` drops back to `false`. -/
theorem dirty_not_monotone_across_parse :
    IsDirty (updateAt [0, 0] (fun n => (setText n "c".data).1)
        (ParseDoc "[a](b)\n".data)) = true ∧
    IsDirty (reParse (updateAt [0, 0] (fun n => (setText n "c".data).1)
        (ParseDoc "[a](b)\n".data)) "x\n".data) = false :=
  ⟨by rfl, by rfl⟩

/-- C8 (amended): every node's own dirty flag is monotone — no operation,
`Parse` included, resets it — and `IsDirty` is monotone under the mutation
operations (`MarkDirty`, the `Text` and `Href` setters); only re-invoking
`Parse`, which replaces the children wholesale, can lower `IsDirty`, namely
when the dirtiness resided in the discarded descendants. -/
theorem dirty_monotonicity_amended :
    (∀ (n : Node) (md : Str), dirtySelfOf n = true →
      dirtySelfOf (reParse n md) = true) ∧
    (∀ (n : Node) (v : Str), dirtySelfOf n = true →
      dirtySelfOf (setText n v).1 = true) ∧
    (∀ (n : Node) (v : Str), IsDirty n = true → IsDirty (setText n v).1 = true) ∧
    (∀ (n : Node) (v : Str), IsDirty n = true → IsDirty (setHref n v) = true) ∧
    (∀ (n : Node), dirtySelfOf (markDirty n) = true ∧
      (IsDirty n = true → IsDirty (markDirty n) = true)) := by
  refine ⟨fun n md h => ?_, fun n v h => ?_, fun n v h => ?_,
    fun n v h => ?_, fun n => ⟨?_, fun h => ?_⟩⟩
  · cases n with
    | doc lt cs b =>
        simp only [reParse]
        split <;> simp_all [dirtySelfOf]
    | _ => simp_all [reParse]
  · cases n <;> simp_all [setText, dirtySelfOf]
  · cases n <;> simp_all [setText, IsDirty]
  · cases n <;> simp_all [setHref, IsDirty]
  · cases n <;> simp [markDirty, dirtySelfOf]
  · cases n <;> simp_all [markDirty, IsDirty]

theorem dirty_monotonicity_amended_witness :
    dirtySelfOf (Node.doc [] [] true) = true ∧
    dirtySelfOf (reParse (Node.doc [] [] true) "x\n".data) = true ∧
    IsDirty (Node.code ⟨"```\n".data, [], "```\n".data, [], [], "```".data,
      [], "\n".data, [], "```".data, [], "\n".data, []⟩ true) = true ∧
    IsDirty (setHref (Node.code ⟨"```\n".data, [], "```\n".data, [], [],
      "```".data, [], "\n".data, [], "```".data, [], "\n".data, []⟩ true)
      "u".data) = true :=
  ⟨rfl, dirty_monotonicity_amended.1 (Node.doc [] [] true) "x\n".data rfl,
   rfl, dirty_monotonicity_amended.2.2.2.1 _ "u".data rfl⟩

/-- C9: Text-setter normalization: after `node.Text = v` the getter returns
`v.strip()` on text nodes, link/image labels and heading titles, while a
code block stores and returns `v` unchanged. -/
theorem text_setter_normalization (v : Str) :
    (∀ (raw leading core trailing : Str) (b : Bool),
      getText (setText (.text raw leading core trailing b) v).1 = pyStrip v) ∧
    (∀ (f : LinkF) (b : Bool), getText (setText (.link f b) v).1 = pyStrip v) ∧
    (∀ (f : HeadingF) (cs : List Node) (b : Bool),
      getText (setText (.heading f cs b) v).1 = pyStrip v) ∧
    (∀ (f : CodeF) (b : Bool), getText (setText (.code f b) v).1 = v) := by
  refine ⟨?_, ?_, ?_, ?_⟩ <;> intros <;> simp [setText, getText]

/-- C10: Atomicity of failed mutation: when a `Text` assignment fails (the
raise happens before any state change), the node — and hence its
serialization — is exactly as before the attempt. -/
theorem failed_mutation_atomicity (n : Node) (v : Str) (e : SetErr)
    (h : (setText n v).2 = some e) :
    (setText n v).1 = n ∧ ToMarkdown (setText n v).1 = ToMarkdown n := by
  cases n with
  | doc lt cs b => exact ⟨rfl, rfl⟩
  | para raw bs cs b => exact ⟨rfl, rfl⟩
  | heading f cs b => simp [setText] at h
  | code f b => simp [setText] at h
  | text raw leading core trailing b => simp [setText] at h
  | link f b => simp [setText] at h

theorem failed_mutation_atomicity_witness :
    (setText (Node.doc [] [] false) "v".data).2 =
      some (.unsupported "Root") ∧
    ((setText (Node.doc [] [] false) "v".data).1 = Node.doc [] [] false ∧
      ToMarkdown (setText (Node.doc [] [] false) "v".data).1 =
        ToMarkdown (Node.doc [] [] false)) :=
  ⟨rfl, failed_mutation_atomicity (Node.doc [] [] false) "v".data
    (.unsupported "Root") rfl⟩

end MarkdownDb
